import Mathlib

/-!
Shallow embedding of the sequence-container micro-benchmark.

The benchmarked element types (`Trivial<N>`, `NonTrivial1`) all expose a
numeric identity field `a`; every search/sort/insert predicate in the
benchmark reads only this field.  We model an element as its identity
field plus an opaque payload field standing for the padding bytes or the
owned string.  The three container shapes (`std::vector`, `std::list`,
`std::deque`) are observed by the benchmark only through their element
sequence (`push_back`, `insert` before an iterator, `erase` at an
iterator, linear traversal), so a container instance is modelled as a
`List Elem` and iterators as positions into it.
-/

/-- An element of the benchmarked containers: identity field `a`
(`Trivial<N>::a`, `NonTrivial1::a`) plus an opaque payload standing for
the padding array `b` / the owned string. -/
structure Elem where
  a : Nat
  pad : Nat
deriving DecidableEq

/-- The element built by the benchmark's brace initializers `{val}`:
identity field set to `val`, payload default-initialized. -/
def mkElem (v : Nat) : Elem := ⟨v, 0⟩

/-- `static const std::size_t REPEAT = 2;` -/
def REPEAT : Nat := 2

/-- One step of the deterministic pseudo-random stream used to model
`std::mt19937()` (a freshly default-constructed generator, hence a fixed
seed and a fixed stream). -/
def lcg (s : Nat) : Nat :=
  (6364136223846793005 * s + 1442695040888963407) % (2 ^ 64)

/-- The default seed of `std::mt19937`. -/
def mtDefaultSeed : Nat := 5489

/-- Models `std::shuffle(begin(v), end(v), std::mt19937())`: a
Fisher-Yates style shuffle driven by the deterministic generator.  The
fuel argument equals the list length at the top call, so the whole list
is consumed.  The exact arrangement is irrelevant to every claim; what
matters is that it is a pure function of the input list (the generator
is freshly default-seeded at each call site) and that it produces a
permutation of its input. -/
def shuffleGo : Nat → List Nat → Nat → List Nat
  | _, l, 0 => l
  | _, [], _ + 1 => []
  | g, x :: xs, fuel + 1 =>
    let j := g % (xs.length + 1)
    (x :: xs).getD j 0 :: shuffleGo (lcg g) ((x :: xs).eraseIdx j) fuel

/-- The cached vector content built at part_000:121-124:
`v.clear(); v.resize(size); std::iota(begin(v), end(v), 0);
std::shuffle(begin(v), end(v), std::mt19937());` — a deterministic
function of `size` alone, because the generator is default-seeded. -/
def shuffledRange (n : Nat) : List Nat := shuffleGo mtDefaultSeed (List.range n) n

namespace FilledRandom

/-- Models `FilledRandom<Container>::make(size)` (part_000:114-134) acting
on one instantiation's static cache `v`.  Returns the identity sequence of
the container it builds (by `push_back({val})` over `v`), the cache after
the call, and whether the permutation was regenerated (`v.size() != size`). -/
def make (size : Nat) (v : List Nat) : List Elem × List Nat × Bool :=
  if v.length ≠ size then
    ((shuffledRange size).map mkElem, shuffledRange size, true)
  else
    (v.map mkElem, v, false)

/-- A cache state reachable for some instantiation: initially empty
(`shuffledRange 0 = []`) and afterwards always the shuffled range of the
last requested size. -/
def goodCache (v : List Nat) : Prop := ∃ m, v = shuffledRange m

/-- The three per-shape static caches `FilledRandom<std::vector<T>>::v`,
`FilledRandom<std::list<T>>::v`, `FilledRandom<std::deque<T>>::v`: the
template produces one distinct static vector per container instantiation. -/
structure ShapeCaches where
  vecCache : List Nat
  listCache : List Nat
  deqCache : List Nat
deriving DecidableEq

/-- `FilledRandom<std::vector<T>>::make` acting on the process state:
touches only the vector-shape cache. -/
def makeVec (size : Nat) (s : ShapeCaches) : List Elem × ShapeCaches × Bool :=
  let r := make size s.vecCache
  (r.1, ⟨r.2.1, s.listCache, s.deqCache⟩, r.2.2)

/-- `FilledRandom<std::list<T>>::make` acting on the process state. -/
def makeList (size : Nat) (s : ShapeCaches) : List Elem × ShapeCaches × Bool :=
  let r := make size s.listCache
  (r.1, ⟨s.vecCache, r.2.1, s.deqCache⟩, r.2.2)

/-- `FilledRandom<std::deque<T>>::make` acting on the process state. -/
def makeDeq (size : Nat) (s : ShapeCaches) : List Elem × ShapeCaches × Bool :=
  let r := make size s.deqCache
  (r.1, ⟨s.vecCache, s.listCache, r.2.1⟩, r.2.2)

end FilledRandom

/-- Models `c.erase(it)` at position `i` (the iterator returned by
`std::find_if`, which is `end()` — position `c.length` — when nothing
matched).  Erasing is only defined for a valid dereferenceable iterator;
`erase(end())` is undefined behaviour, modelled as `none`. -/
def cppErase (c : List Elem) (i : Nat) : Option (List Elem) :=
  if i < c.length then some (c.eraseIdx i) else none

namespace Remove

/-- One iteration of `Remove<Container>::run` (part_000:208-212):
`auto it = std::find_if(begin(c), end(c), [&](v){ return v.a == i; });
c.erase(it);` — note the erase is unconditional. -/
def step (i : Nat) (c : List Elem) : Option (List Elem) :=
  cppErase c (c.findIdx (fun v => v.a == i))

end Remove

namespace Insert

/-- One iteration of `Insert<Container>::run` (part_000:196-200):
find the first element with `v.a == i` and insert `{size + i}` before
it; `find_if` yields `end()` when absent, so the insert then lands at
the end of the sequence (inserting at `end()` is valid). -/
def step (size i : Nat) (c : List Elem) : List Elem :=
  c.insertIdx (c.findIdx (fun v => v.a == i)) (mkElem (size + i))

/-- `Insert<Container>::run(c, size)`: the loop `for(i = 0; i < 1000; ++i)`. -/
def run (c : List Elem) (size : Nat) : List Elem :=
  (List.range 1000).foldl (fun acc i => step size i acc) c

end Insert

namespace RandomSortedInsert

/-- One iteration of `RandomSortedInsert<Container>::run`
(part_000:243-247): draw `val`, insert `{val}` before the first element
with `v.a >= val`. -/
def step (val : Nat) (c : List Elem) : List Elem :=
  c.insertIdx (c.findIdx (fun v => decide (val ≤ v.a))) (mkElem val)

/-- The first `k` iterations of `RandomSortedInsert<Container>::run`,
with the generator's successive draws abstracted as the stream `draws`
(the i-th loop iteration draws `draws i`).  The full run is `k = size`. -/
def run (draws : Nat → Nat) (k : Nat) (c : List Elem) : List Elem :=
  (List.range k).foldl (fun acc i => step (draws i) acc) c

end RandomSortedInsert

/-- The ordering the benchmark sorts by: `operator<` of every element
type compares only the identity field `a`; its reflexive closure. -/
def elemLe (x y : Elem) : Prop := x.a ≤ y.a

instance : DecidableRel elemLe := fun x y => Nat.decLe x.a y.a

instance : IsTotal Elem elemLe := ⟨fun x y => Nat.le_total x.a y.a⟩

instance : IsTrans Elem elemLe := ⟨fun _ _ _ => Nat.le_trans⟩

namespace SortPolicy

/-- Models `Sort<Container>::run` (part_000:216-230): `std::sort` for
vector/deque and `list::sort` for the list shape, both comparing with
`operator<` on the identity field; modelled as a comparison sort by
`elemLe` (for the benchmark's inputs the keys are distinct, so the
sorted sequence is unique; `list::sort` is additionally stable, which
the model mirrors). -/
def run (c : List Elem) : List Elem := List.insertionSort elemLe c

end SortPolicy

/-- The accumulation loop of `bench` (part_000:279-291):
`Clock::duration duration;` followed by `REPEAT` iterations of
`duration += t1 - t0`.  The declaration default-initializes the
duration, leaving its integral representation indeterminate; `init` is
that initial representation value (0 only if the accumulator had been
zero-initialized), `elapsed i` the i-th trial's elapsed nanoseconds. -/
def benchAccum (init : Nat) (elapsed : Nat → Nat) : Nat :=
  (List.range REPEAT).foldl (fun d i => d + elapsed i) init

/-- The value emitted at part_000:293-294:
`std::chrono::duration_cast<DurationUnit>(duration).count() / REPEAT`.
`unitDenom` is the number of clock ticks (nanoseconds) per declared
unit (1000 for microseconds, 1000000 for milliseconds); `duration_cast`
to a coarser unit truncates, i.e. divides. -/
def benchEmit (init : Nat) (elapsed : Nat → Nat) (unitDenom : Nat) : Nat :=
  benchAccum init elapsed / unitDenom / REPEAT

/-- C `isspace` on the default locale, as skipped by `atoi`. -/
def cIsSpace (c : Char) : Bool :=
  c == ' ' || c == '\t' || c == '\n' || c == '\r' || c.toNat == 11 || c.toNat == 12

/-- The digit-consuming loop of C `atoi`: accumulate decimal digits,
stop at the first non-digit. -/
def atoiDigits : List Char → Nat → Nat
  | [], acc => acc
  | c :: cs, acc => if c.isDigit then atoiDigits cs (acc * 10 + (c.toNat - 48)) else acc

/-- C `atoi` after whitespace skipping: optional sign, then digits. -/
def atoiSigned : List Char → Int
  | '-' :: cs => - (atoiDigits cs 0 : Int)
  | '+' :: cs => (atoiDigits cs 0 : Int)
  | cs => (atoiDigits cs 0 : Int)

/-- `atoi(s.c_str())` as called by `numeric_cmp` (graphs.cpp:34-36);
overflow cannot occur for the benchmark's group labels (decimal
renderings of sizes up to 1000000). -/
def atoi (s : String) : Int := atoiSigned (s.data.dropWhile cIsSpace)

/-- `numeric_cmp` (graphs.cpp:34-36): compare two labels by their
parsed integer values. -/
def numeric_cmp (lhs rhs : String) : Bool := decide (atoi lhs < atoi rhs)

/-- The ordering actually established by `std::sort(groups.begin(),
groups.end(), numeric_cmp)`: a comparison sort with strict comparator
`cmp` arranges the sequence so that consecutive elements satisfy
`¬ cmp(r, l)`, i.e. `atoi l ≤ atoi r`. -/
def numericLe (lhs rhs : String) : Prop := atoi lhs ≤ atoi rhs

instance : DecidableRel numericLe := fun l r => Int.decLe (atoi l) (atoi r)

instance : IsTotal String numericLe := ⟨fun l r => Int.le_total (atoi l) (atoi r)⟩

instance : IsTrans String numericLe := ⟨fun _ _ _ => Int.le_trans⟩

/-- Models graphs.cpp:62-66: the group keys of one graph (collected from
the `unordered_map` in whatever unspecified order it iterates) sorted
with `numeric_cmp`; the sorted vector is then the emission order of the
group rows in the chart data. -/
def sortGroups (gs : List String) : List String := List.insertionSort numericLe gs

namespace graphs

/-- One `(serie, group, value)` sample as pushed by `graphs::new_result`. -/
structure result where
  serie : String
  group : String
  value : Nat
deriving DecidableEq

/-- `graphs::graph` (name, title, unit, accumulated results). -/
structure graph where
  name : String
  title : String
  unit : String
  results : List result
deriving DecidableEq

end graphs

/-- The two process-wide globals of graphs.cpp:8-9:
`std::shared_ptr<graphs::graph> current_graph;` and
`std::vector<std::shared_ptr<graphs::graph>> all_graphs;`.
`current_graph` aliases an element of `all_graphs` (or is null before
the first `new_graph`), so it is modelled as an optional index into the
list; `none` models the null pointer. -/
structure GraphsState where
  all_graphs : List graphs.graph
  current_graph : Option Nat
deriving DecidableEq

namespace graphs

/-- The state at program start: no graphs, null `current_graph`. -/
def initState : GraphsState := ⟨[], none⟩

/-- `graphs::new_graph` (graphs.cpp:11-16): allocate a fresh graph,
point `current_graph` at it, push it onto `all_graphs`. -/
def new_graph (gname gtitle gunit : String) (s : GraphsState) : GraphsState :=
  ⟨s.all_graphs ++ [⟨gname, gtitle, gunit, []⟩], some s.all_graphs.length⟩

/-- `graphs::new_result` (graphs.cpp:18-22):
`current_graph->results.push_back({serie, group, value});` —
dereferences `current_graph`, which is undefined behaviour (modelled as
`none`) when it is still null; otherwise appends the sample to the graph
it points at. -/
def new_result (serie group : String) (value : Nat) (s : GraphsState) : Option GraphsState :=
  match s.current_graph with
  | none => none
  | some i =>
    if h : i < s.all_graphs.length then
      some ⟨s.all_graphs.set i
              { s.all_graphs[i] with
                results := s.all_graphs[i].results ++ [⟨serie, group, value⟩] },
            s.current_graph⟩
    else none

end graphs

/-- The states the graphs module can actually be in: the initial state,
followed by any interleaving of `new_graph` and successful `new_result`
calls (`graphs::output` reads but never writes this state). -/
inductive Reachable : GraphsState → Prop
  | init : Reachable graphs.initState
  | graphStep (s : GraphsState) (gname gtitle gunit : String) :
      Reachable s → Reachable (graphs.new_graph gname gtitle gunit s)
  | resultStep (s s' : GraphsState) (serie group : String) (value : Nat) :
      Reachable s → graphs.new_result serie group value s = some s' → Reachable s'

/-! ### Helper lemmas about the modelled shuffle and cache -/

/-- Extracting the element at a valid index and prepending it to the
remainder is a permutation of the original list. -/
theorem getD_cons_eraseIdx_perm (l : List Nat) (j : Nat) (h : j < l.length) :
    List.Perm (l.getD j 0 :: l.eraseIdx j) l := by
  have hg : l.getD j 0 = l[j] := by
    rw [List.getD_eq_getElem?_getD, List.getElem?_eq_getElem h]
    rfl
  have h2 : l.take j ++ l[j] :: l.drop (j + 1) = l := by
    rw [← List.drop_eq_getElem_cons h, List.take_append_drop]
  rw [hg, List.eraseIdx_eq_take_drop_succ]
  conv_rhs => rw [← h2]
  exact List.perm_middle.symm

/-- The modelled `std::shuffle` produces a permutation of its input. -/
theorem shuffleGo_perm (f : Nat) : ∀ (g : Nat) (l : List Nat), List.Perm (shuffleGo g l f) l := by
  induction f with
  | zero => intro g l; simp [shuffleGo]
  | succ f ih =>
    intro g l
    cases l with
    | nil => simp [shuffleGo]
    | cons x xs =>
      have hj : g % (xs.length + 1) < (x :: xs).length := by
        simp only [List.length_cons]
        exact Nat.mod_lt _ (Nat.succ_pos _)
      exact List.Perm.trans
        (List.Perm.cons _ (ih (lcg g) ((x :: xs).eraseIdx (g % (xs.length + 1)))))
        (getD_cons_eraseIdx_perm (x :: xs) (g % (xs.length + 1)) hj)

/-- The cached vector for size `n` is a permutation of `0..n-1`. -/
theorem shuffledRange_perm (n : Nat) : List.Perm (shuffledRange n) (List.range n) :=
  shuffleGo_perm n mtDefaultSeed (List.range n)

/-- The cached vector for size `n` has length `n`. -/
theorem shuffledRange_length (n : Nat) : (shuffledRange n).length = n :=
  ((shuffledRange_perm n).length_eq).trans (List.length_range n)

/-- The initial (empty) static cache is a good cache. -/
theorem goodCache_nil : FilledRandom.goodCache [] :=
  ⟨0, by simp [shuffledRange, shuffleGo]⟩

/-- From any good cache, `FilledRandom::make` builds the container from
the shuffled range of the requested size, and leaves the cache equal to
that shuffled range. -/
theorem goodCache_contents (size : Nat) (v : List Nat) (h : FilledRandom.goodCache v) :
    (FilledRandom.make size v).1 = (shuffledRange size).map mkElem ∧
    (FilledRandom.make size v).2.1 = shuffledRange size := by
  obtain ⟨m, rfl⟩ := h
  by_cases hl : (shuffledRange m).length = size
  · have hm : m = size := by rw [shuffledRange_length] at hl; exact hl
    subst hm
    simp [FilledRandom.make, hl]
  · simp [FilledRandom.make, hl]

/-- `FilledRandom::make` keeps the cache good. -/
theorem goodCache_preserved (size : Nat) (v : List Nat) (h : FilledRandom.goodCache v) :
    FilledRandom.goodCache (FilledRandom.make size v).2.1 :=
  ⟨size, (goodCache_contents size v h).2⟩

/-- C3: for every size, the identity-value sequences produced by
Random-Permutation-Fill for the contiguous (vector), doubly-linked
(list) and segmented-deque shapes are element-for-element identical
(each shape's own static cache notwithstanding, because the shuffle is
driven by a freshly default-seeded generator and is therefore a pure
function of the size); in particular the multisets of identity values
agree across shapes, and the per-shape caches stay good, so the
agreement persists across repetitions. -/
theorem filledRandom_shape_independent (size : Nat) (s : FilledRandom.ShapeCaches)
    (hv : FilledRandom.goodCache s.vecCache) (hl : FilledRandom.goodCache s.listCache)
    (hd : FilledRandom.goodCache s.deqCache) :
    (FilledRandom.makeVec size s).1 = (FilledRandom.makeList size s).1 ∧
    (FilledRandom.makeList size s).1 = (FilledRandom.makeDeq size s).1 ∧
    List.Perm ((FilledRandom.makeVec size s).1.map Elem.a)
      ((FilledRandom.makeList size s).1.map Elem.a) ∧
    FilledRandom.goodCache (FilledRandom.makeVec size s).2.1.vecCache ∧
    FilledRandom.goodCache (FilledRandom.makeList size s).2.1.listCache ∧
    FilledRandom.goodCache (FilledRandom.makeDeq size s).2.1.deqCache := by
  have cv := goodCache_contents size s.vecCache hv
  have cl := goodCache_contents size s.listCache hl
  have cd := goodCache_contents size s.deqCache hd
  have e1 : (FilledRandom.makeVec size s).1 = (FilledRandom.makeList size s).1 := by
    show (FilledRandom.make size s.vecCache).1 = (FilledRandom.make size s.listCache).1
    rw [cv.1, cl.1]
  have e2 : (FilledRandom.makeList size s).1 = (FilledRandom.makeDeq size s).1 := by
    show (FilledRandom.make size s.listCache).1 = (FilledRandom.make size s.deqCache).1
    rw [cl.1, cd.1]
  refine ⟨e1, e2, by rw [e1], ?_, ?_, ?_⟩
  · exact goodCache_preserved size s.vecCache hv
  · exact goodCache_preserved size s.listCache hl
  · exact goodCache_preserved size s.deqCache hd

/-- Witness for C3 at size 2 from the initial (empty) caches. -/
theorem filledRandom_shape_independent_witness :
    FilledRandom.goodCache ([] : List Nat) ∧
    (FilledRandom.makeVec 2 ⟨[], [], []⟩).1 = (FilledRandom.makeList 2 ⟨[], [], []⟩).1 :=
  ⟨goodCache_nil,
   (filledRandom_shape_independent 2 ⟨[], [], []⟩ goodCache_nil goodCache_nil goodCache_nil).1⟩

/-- C4: after Random-Permutation-Fill for size `n` (from any reachable
cache state), the cached vector is a permutation of `0..n-1`, and so is
the sequence of identity fields of the container it builds, in order. -/
theorem filledRandom_fills_with_permutation (n : Nat) (v : List Nat)
    (h : FilledRandom.goodCache v) :
    List.Perm (FilledRandom.make n v).2.1 (List.range n) ∧
    List.Perm ((FilledRandom.make n v).1.map Elem.a) (List.range n) := by
  obtain ⟨hc, hv⟩ := goodCache_contents n v h
  constructor
  · rw [hv]
    exact shuffledRange_perm n
  · rw [hc]
    have hm : ((shuffledRange n).map mkElem).map Elem.a = shuffledRange n := by
      rw [List.map_map]
      have hid : Elem.a ∘ mkElem = id := funext fun x => rfl
      rw [hid, List.map_id]
    rw [hm]
    exact shuffledRange_perm n

/-- Witness for C4 at size 2 from the initial (empty) cache. -/
theorem filledRandom_fills_with_permutation_witness :
    FilledRandom.goodCache ([] : List Nat) ∧
    List.Perm (FilledRandom.make 2 []).2.1 (List.range 2) :=
  ⟨goodCache_nil, (filledRandom_fills_with_permutation 2 [] goodCache_nil).1⟩

/-- C5 counterexample: the permutation is NOT generated once and shared
process-wide across container shapes.  Starting from the initial state
(all three per-instantiation static caches empty), the vector shape's
`make(2)` generates the permutation; the list shape's subsequent
`make(2)` finds its own cache still empty and generates it again —
under the claim the second call would have reused the already generated
permutation, i.e. its regeneration flag would be `false`. -/
theorem filledRandom_not_shared_counterexample :
    (FilledRandom.makeVec 2 ⟨[], [], []⟩).2.2 = true ∧
    (FilledRandom.makeList 2 (FilledRandom.makeVec 2 ⟨[], [], []⟩).2.1).2.2 = true := by
  constructor <;> rfl

/-- C5 amended: each (container shape × element type) instantiation of
`FilledRandom` owns its own process-lifetime static cache.  Within one
cache, invoking `make` with a requested size equal to the cached
vector's size leaves the cached vector unchanged and reuses it without
regeneration, and the permutation is regenerated exactly when the
requested size differs; a shape's `make` never touches the other
shapes' caches (so nothing is shared across shapes — cross-shape
agreement of the contents comes solely from the deterministic
default-seeded shuffle). -/
theorem filledRandom_cache_behavior (size : Nat) (v : List Nat) (s : FilledRandom.ShapeCaches) :
    FilledRandom.make size v =
      (if v.length = size then (v.map mkElem, v, false)
       else ((shuffledRange size).map mkElem, shuffledRange size, true)) ∧
    (FilledRandom.makeVec size s).2.1.listCache = s.listCache ∧
    (FilledRandom.makeVec size s).2.1.deqCache = s.deqCache ∧
    (FilledRandom.makeList size s).2.1.vecCache = s.vecCache ∧
    (FilledRandom.makeList size s).2.1.deqCache = s.deqCache ∧
    (FilledRandom.makeDeq size s).2.1.vecCache = s.vecCache ∧
    (FilledRandom.makeDeq size s).2.1.listCache = s.listCache := by
  refine ⟨?_, rfl, rfl, rfl, rfl, rfl, rfl⟩
  by_cases h : v.length = size
  · simp [FilledRandom.make, h]
  · simp [FilledRandom.make, h]

/-- C1: the bench driver accumulates exactly `REPEAT = 2` trial times
and emits `duration_cast(duration).count() / REPEAT` — which equals the
arithmetic mean of the two trials converted to the declared unit
(never the sum, never one trial) precisely when the accumulator starts
at zero.  The code, however, declares `Clock::duration duration;`
without an initializer, so the accumulation starts from an
indeterminate representation value `init`, not from zero: with a
residual value of 2000000 ns and two 0 ns trials at microsecond
granularity the code emits 1000 µs where the claimed mean is 0 µs. -/
theorem bench_emit_mean_only_if_zero_init :
    (∀ elapsed : Nat → Nat, ∀ unitDenom : Nat,
      benchEmit 0 elapsed unitDenom = ((elapsed 0 + elapsed 1) / 2) / unitDenom) ∧
    benchEmit 2000000 (fun _ => 0) 1000 = 1000 ∧
    ((0 + 0 : Nat) / 2) / 1000 = 0 := by
  refine ⟨?_, by decide, by decide⟩
  intro e u
  have h1 : benchAccum 0 e = e 0 + e 1 := by
    simp [benchAccum, REPEAT, List.range_succ]
  show benchAccum 0 e / u / REPEAT = ((e 0 + e 1) / 2) / u
  rw [h1, REPEAT, Nat.div_div_eq_div_mul, Nat.div_div_eq_div_mul, Nat.mul_comm]

/-- C2 counterexample: the Randomized-Remove step for an absent target
is not a no-op.  On the empty container with target identity 0 (no
element has identity 0), `find_if` returns `end()` and the code calls
`c.erase(end())` — an erase at an invalid position (undefined
behaviour), modelled as `none`; the claim predicts `some []`
(container left unchanged). -/
theorem remove_absent_not_noop :
    Remove.step 0 ([] : List Elem) = none ∧
    Remove.step 0 ([] : List Elem) ≠ some [] := by
  refine ⟨rfl, by decide⟩

/-- C2 amended: if the container holds no element with identity `i`,
the Remove step attempts `erase(end())` — an erase at an invalid
position (undefined behaviour) — instead of leaving the container
unchanged; if it holds one, the step erases the first such element and
the container shrinks by exactly one. -/
theorem remove_step_spec (i : Nat) (c : List Elem) :
    ((∀ x ∈ c, x.a ≠ i) → Remove.step i c = none) ∧
    ((∃ x ∈ c, x.a = i) →
      Remove.step i c = some (c.eraseIdx (c.findIdx (fun v => v.a == i))) ∧
      (c.eraseIdx (c.findIdx (fun v => v.a == i))).length + 1 = c.length) := by
  constructor
  · intro h
    have hf : c.findIdx (fun v => v.a == i) = c.length :=
      List.findIdx_eq_length_of_false (fun x hx => by simpa using h x hx)
    rw [Remove.step, cppErase, hf]
    simp
  · intro h
    have hf : c.findIdx (fun v => v.a == i) < c.length := by
      refine List.findIdx_lt_length_of_exists ?_
      obtain ⟨x, hx, he⟩ := h
      exact ⟨x, hx, by simpa using he⟩
    refine ⟨?_, List.length_eraseIdx_add_one hf⟩
    rw [Remove.step, cppErase]
    simp [hf]

/-- Witness for C2's amended theorem: absent target on the empty
container, present target on a singleton. -/
theorem remove_step_spec_witness :
    Remove.step 0 ([] : List Elem) = none ∧
    Remove.step 0 [mkElem 0] =
      some ([mkElem 0].eraseIdx ([mkElem 0].findIdx (fun v => v.a == 0))) :=
  ⟨(remove_step_spec 0 []).1 (by simp),
   ((remove_step_spec 0 [mkElem 0]).2 ⟨mkElem 0, by simp, rfl⟩).1⟩

/-- One Randomized-Insert step grows the container by exactly one
element: `find_if` returns a position no further than `end()`, and
`insert` before it (including at `end()`) adds one element. -/
theorem insert_step_length (size i : Nat) (c : List Elem) :
    (Insert.step size i c).length = c.length + 1 :=
  List.length_insertIdx _ _ (List.findIdx_le_length _)

/-- Folding `n` Randomized-Insert steps grows the container by `n`. -/
theorem insert_foldl_length (size n : Nat) (c : List Elem) :
    ((List.range n).foldl (fun acc i => Insert.step size i acc) c).length = c.length + n := by
  induction n generalizing c with
  | zero => simp
  | succ n ih =>
    rw [List.range_succ, List.foldl_append]
    simp only [List.foldl_cons, List.foldl_nil, insert_step_length, ih]
    omega

/-- C6: Randomized-Insert performs exactly 1000 insertions — for each
`i` in `0..999` it inserts an element with identity `size + i` before
the first element whose identity equals `i` (each step growing the
container by one), landing at the end of the sequence when no such
element exists — so the container's length grows by exactly 1000. -/
theorem insert_spec (c : List Elem) (size : Nat) :
    (Insert.run c size).length = c.length + 1000 ∧
    (∀ i, (Insert.step size i c).length = c.length + 1) ∧
    (∀ i, (∀ x ∈ c, x.a ≠ i) → Insert.step size i c = c ++ [mkElem (size + i)]) := by
  refine ⟨insert_foldl_length size 1000 c, fun i => insert_step_length size i c, ?_⟩
  intro i h
  have hf : c.findIdx (fun v => v.a == i) = c.length :=
    List.findIdx_eq_length_of_false (fun x hx => by simpa using h x hx)
  rw [Insert.step, hf, List.insertIdx_length_self]

/-- Witness for C6: run from the empty container, end-insertion step. -/
theorem insert_spec_witness :
    (Insert.run [] 5).length = 0 + 1000 ∧
    Insert.step 5 0 ([] : List Elem) = [] ++ [mkElem 5] :=
  ⟨(insert_spec [] 5).1, (insert_spec [] 5).2.2 0 (by simp)⟩

/-- One Randomized-Sorted-Insert step — insert before the first element
whose identity is ≥ the drawn value, found by linear scan from the
front — is exactly ordered insertion with respect to `elemLe`. -/
theorem sortedInsert_step_eq (val : Nat) (c : List Elem) :
    RandomSortedInsert.step val c = List.orderedInsert elemLe (mkElem val) c := by
  induction c with
  | nil => rfl
  | cons b l ih =>
    rw [RandomSortedInsert.step, List.findIdx_cons]
    by_cases h : val ≤ b.a
    · have hb : decide (val ≤ b.a) = true := by simpa using h
      rw [hb]
      show List.insertIdx 0 (mkElem val) (b :: l) = _
      rw [List.orderedInsert, if_pos (show elemLe (mkElem val) b from h)]
      rfl
    · have hb : decide (val ≤ b.a) = false := by simpa using h
      rw [hb]
      show List.insertIdx (l.findIdx (fun v => decide (val ≤ v.a)) + 1) (mkElem val) (b :: l) = _
      rw [List.insertIdx_succ_cons, List.orderedInsert,
        if_neg (show ¬ elemLe (mkElem val) b from h)]
      exact congrArg (b :: ·) ih

/-- Peeling the last iteration off a Randomized-Sorted-Insert run. -/
theorem sortedInsert_run_succ (draws : Nat → Nat) (k : Nat) (c : List Elem) :
    RandomSortedInsert.run draws (k + 1) c =
      RandomSortedInsert.step (draws k) (RandomSortedInsert.run draws k c) := by
  rw [RandomSortedInsert.run, RandomSortedInsert.run, List.range_succ, List.foldl_append]
  rfl

/-- Every intermediate state of a Randomized-Sorted-Insert run from the
empty container is sorted by the identity field. -/
theorem sortedInsert_run_sorted (draws : Nat → Nat) (k : Nat) :
    List.Sorted elemLe (RandomSortedInsert.run draws k []) := by
  induction k with
  | zero => simp [RandomSortedInsert.run]
  | succ k ih =>
    rw [sortedInsert_run_succ, sortedInsert_step_eq]
    exact List.Sorted.orderedInsert _ _ ih

/-- A Randomized-Sorted-Insert run of `k` steps from the empty
container holds exactly `k` elements. -/
theorem sortedInsert_run_length (draws : Nat → Nat) (k : Nat) :
    (RandomSortedInsert.run draws k []).length = k := by
  induction k with
  | zero => rfl
  | succ k ih =>
    rw [sortedInsert_run_succ, sortedInsert_step_eq, List.orderedInsert_length, ih]

/-- C7: starting from the empty container, for any stream of drawn
values, after each of the `size` insertion steps (any prefix `k ≤ size`
of the run) the sequence is sorted ascending by identity field, and
after the full run the container holds exactly `size` elements in
ascending identity order. -/
theorem randomSortedInsert_spec (draws : Nat → Nat) (size : Nat) :
    (∀ k, k ≤ size → List.Sorted elemLe (RandomSortedInsert.run draws k [])) ∧
    (RandomSortedInsert.run draws size []).length = size ∧
    List.Sorted elemLe (RandomSortedInsert.run draws size []) :=
  ⟨fun k _ => sortedInsert_run_sorted draws k, sortedInsert_run_length draws size,
   sortedInsert_run_sorted draws size⟩

/-- Witness for C7 with a constant draw stream, prefix 1 of a 2-step run. -/
theorem randomSortedInsert_spec_witness :
    List.Sorted elemLe (RandomSortedInsert.run (fun _ => 3) 1 []) ∧
    (RandomSortedInsert.run (fun _ => 3) 2 []).length = 2 :=
  ⟨(randomSortedInsert_spec (fun _ => 3) 2).1 1 (by decide),
   (randomSortedInsert_spec (fun _ => 3) 2).2.1⟩

/-- C8: after the Sort operation every adjacent pair of elements
satisfies `left.a ≤ right.a`, and Sort is idempotent — applied to an
already-sorted sequence it yields the same sequence. -/
theorem sort_spec (c : List Elem) :
    List.Chain' elemLe (SortPolicy.run c) ∧
    (List.Sorted elemLe c → SortPolicy.run c = c) := by
  constructor
  · exact (List.sorted_insertionSort elemLe c).chain'
  · intro h
    exact h.insertionSort_eq

/-- Witness for C8 on a concrete already-sorted container. -/
theorem sort_spec_witness :
    List.Sorted elemLe [mkElem 0, mkElem 1] ∧
    SortPolicy.run [mkElem 0, mkElem 1] = [mkElem 0, mkElem 1] :=
  ⟨by decide, (sort_spec [mkElem 0, mkElem 1]).2 (by decide)⟩

/-- C9: whatever (unspecified hash-map) order the accumulated group
labels of a graph are collected in, the rendered chart emits them in
ascending order of their parsed integer values — each adjacent pair of
emitted labels satisfies `atoi l ≤ atoi r` (numeric, not
lexicographic, so label width is irrelevant) — and emits exactly the
collected labels. -/
theorem output_groups_sorted (gs : List String) :
    List.Chain' (fun l r => atoi l ≤ atoi r) (sortGroups gs) ∧
    List.Perm (sortGroups gs) gs := by
  constructor
  · exact (List.sorted_insertionSort numericLe gs).chain'
  · exact List.perm_insertionSort numericLe gs

/-- `new_result` on a null `current_graph` dereferences the null
pointer (undefined behaviour, modelled as `none`). -/
theorem new_result_none (serie group : String) (value : Nat) (s : GraphsState)
    (h : s.current_graph = none) : graphs.new_result serie group value s = none := by
  unfold graphs.new_result
  rw [h]

/-- `new_result` with `current_graph` pointing at a valid graph appends
the sample to that graph. -/
theorem new_result_some (serie group : String) (value : Nat) (s : GraphsState) (i : Nat)
    (h : s.current_graph = some i) (hlt : i < s.all_graphs.length) :
    graphs.new_result serie group value s =
      some ⟨s.all_graphs.set i
              { s.all_graphs[i] with
                results := s.all_graphs[i].results ++ [⟨serie, group, value⟩] },
            s.current_graph⟩ := by
  unfold graphs.new_result
  simp only [h]
  rw [dif_pos hlt]

/-- The aliasing invariant of the graphs module: `current_graph` is
null exactly while `all_graphs` is empty, and otherwise points at the
last pushed graph. -/
def GraphsInv (s : GraphsState) : Prop :=
  (s.current_graph = none → s.all_graphs = []) ∧
  (∀ i, s.current_graph = some i → i + 1 = s.all_graphs.length)

/-- Every reachable state of the graphs module satisfies the aliasing
invariant. -/
theorem reachable_inv {s : GraphsState} (h : Reachable s) : GraphsInv s := by
  induction h with
  | init =>
    refine ⟨fun _ => rfl, fun i h => ?_⟩
    simp [graphs.initState] at h
  | graphStep s gname gtitle gunit hs ih =>
    refine ⟨fun h => ?_, fun i h => ?_⟩
    · simp [graphs.new_graph] at h
    · have hi : s.all_graphs.length = i := by simpa [graphs.new_graph] using h
      simp [graphs.new_graph, ← hi]
  | resultStep s s' serie group value hs heq ih =>
    cases hc : s.current_graph with
    | none =>
      rw [new_result_none serie group value s hc] at heq
      cases heq
    | some i =>
      by_cases hlt : i < s.all_graphs.length
      · rw [new_result_some serie group value s i hc hlt] at heq
        have hx := Option.some.inj heq
        subst hx
        refine ⟨fun h => ?_, fun j h => ?_⟩
        · have h' : s.current_graph = none := h
          rw [hc] at h'
          cases h'
        · have h' : s.current_graph = some j := h
          rw [hc] at h'
          have hj := Option.some.inj h'
          subst hj
          simpa [List.length_set] using ih.2 i hc
      · unfold graphs.new_result at heq
        simp [hc, dif_neg hlt] at heq

/-- Writing at the last position of a list replaces its last element. -/
theorem set_last_eq {α : Type} (l : List α) (i : Nat) (x : α) (h : i + 1 = l.length) :
    l.set i x = l.dropLast ++ [x] := by
  have hlt : i < l.length := by omega
  rw [List.set_eq_take_cons_drop x hlt, List.dropLast_eq_take, ← h, Nat.add_sub_cancel]
  rw [show l.drop (i + 1) = [] from by rw [h, List.drop_length]]

/-- The last element of a list through its `length - 1` index. -/
theorem getLast?_eq_get_of_last {α : Type} (l : List α) (i : Nat) (h : i + 1 = l.length)
    (hlt : i < l.length) : l.getLast? = some l[i] := by
  rw [List.getLast?_eq_getElem?]
  have hi : l.length - 1 = i := by omega
  rw [hi, List.getElem?_eq_getElem hlt]

/-- C10: `graphs::new_result` is only safe after at least one
`graphs::new_graph` call — on any reachable state with no accumulated
graph, `current_graph` is still null and the call dereferences it
(undefined behaviour, `none`); on any reachable state with at least one
graph, the call succeeds and appends the emitted Result Sample to the
most recently started graph — the last element of `all_graphs`, which
is exactly the graph `current_graph` points at. -/
theorem graphs_new_result_spec (s : GraphsState) (serie group : String) (value : Nat)
    (hr : Reachable s) :
    (s.all_graphs = [] → graphs.new_result serie group value s = none) ∧
    (s.all_graphs ≠ [] → ∃ g s',
      s.all_graphs.getLast? = some g ∧
      graphs.new_result serie group value s = some s' ∧
      s'.all_graphs = s.all_graphs.dropLast ++
        [{ g with results := g.results ++ [⟨serie, group, value⟩] }] ∧
      s'.current_graph = s.current_graph ∧
      ∃ i, s.current_graph = some i ∧ i + 1 = s.all_graphs.length) := by
  have inv := reachable_inv hr
  cases hc : s.current_graph with
  | none =>
    have hnil : s.all_graphs = [] := inv.1 hc
    exact ⟨fun _ => new_result_none serie group value s hc, fun h => absurd hnil h⟩
  | some i =>
    have hlen : i + 1 = s.all_graphs.length := inv.2 i hc
    have hlt : i < s.all_graphs.length := by omega
    have hne : s.all_graphs ≠ [] := by
      intro h
      rw [h] at hlen
      simp at hlen
    refine ⟨fun h => absurd h hne, fun _ => ?_⟩
    have hnr := new_result_some serie group value s i hc hlt
    rw [hc] at hnr
    refine ⟨s.all_graphs[i],
      ⟨s.all_graphs.set i
         { s.all_graphs[i] with
           results := s.all_graphs[i].results ++ [⟨serie, group, value⟩] },
       some i⟩,
      getLast?_eq_get_of_last s.all_graphs i hlen hlt,
      hnr, ?_, rfl, ⟨i, rfl, hlen⟩⟩
    exact set_last_eq s.all_graphs i _ hlen

/-- Witness for C10: at program start (before any `new_graph`),
emitting a result dereferences the null `current_graph`. -/
theorem graphs_new_result_spec_witness :
    graphs.new_result "vector" "1000" 5 graphs.initState = none :=
  (graphs_new_result_spec graphs.initState "vector" "1000" 5 Reachable.init).1 rfl
